import Mathlib

set_option maxHeartbeats 1000000

/-!
Verification development for the notary TUF repository engine.

The development shallowly embeds the parts of the code base that the
claims are about: the signed-envelope verifier and signer, the
delegation-role algebra, the server-side metadata storage, the
repository delegation operations, the server-side update validator, and
the PEM key import helper.  Cryptography is abstracted: a key is its
identifier (key ids are injective hashes of the public material), and a
signature record carries the id of the key that actually produced it
together with the message it covers; checking a signature against a
declared key id succeeds exactly when that key produced it over the
canonical bytes being verified.
-/

deriving instance DecidableEq for Except

/-- Metadata common to every signed TUF document: the type tag, the
version and the expiry.  Timestamps are modelled as integers. -/
structure SignedCommon where
  typ : String
  version : Int
  expires : Int
  deriving DecidableEq, Repr

/-- A single signature entry of an envelope: the declared key id, the
signing method, and (abstracting the raw bytes) the key that actually
produced the signature and the message it covers. -/
structure Signature where
  keyID : String
  method : String
  sigKey : String
  sigMsg : SignedCommon
  deriving DecidableEq, Repr

/-- A signed envelope: canonical payload plus a list of signatures. -/
structure Signed where
  signed : SignedCommon
  signatures : List Signature
  deriving DecidableEq, Repr

/-- A role descriptor: name, authorized key ids, threshold, and (for
delegations) path prefixes. -/
structure Role where
  name : String
  keyIDs : List String
  threshold : Nat
  paths : List String
  deriving DecidableEq, Repr

/-- The key database handed to the verifier: the set of known public
keys (by id) and the role descriptors. -/
structure KeyDB where
  keys : List String
  roles : List Role
  deriving DecidableEq, Repr

def KeyDB.getRole (db : KeyDB) (name : String) : Option Role :=
  db.roles.find? (fun r => r.name == name)

def KeyDB.hasKey (db : KeyDB) (id : String) : Bool :=
  db.keys.contains id

def splitCharList (c : Char) : List Char → List (List Char)
  | [] => [[]]
  | x :: xs =>
    match splitCharList c xs with
    | [] => [[]]
    | g :: gs => if x == c then [] :: g :: gs else (x :: g) :: gs

/-- Splits a role name into its slash-separated segments. -/
def splitSlash (s : String) : List String :=
  (splitCharList '/' s.toList).map (fun l => ⟨l⟩)

/-- Joins segments back with slashes; the last segment dropped, this is
the parent of a role name (path.Dir in the source). -/
def joinSlash : List String → String
  | [] => ""
  | [s] => s
  | s :: rest => s ++ "/" ++ joinSlash rest

/-- The parent role name: everything up to the last slash. -/
def pathDir (s : String) : String :=
  joinSlash (splitSlash s).dropLast

def isPrefixCharList : List Char → List Char → Bool
  | [], _ => true
  | _ :: _, [] => false
  | x :: xs, y :: ys => x == y && isPrefixCharList xs ys

/-- Byte-prefix test on strings (strings.HasPrefix in the source). -/
def strHasPfx (p s : String) : Bool := isPrefixCharList p.toList s.toList

/-- Modelled from the spec: a delegated role name has the form
targets[/segment]+ with segment characters drawn from lowercase
letters, digits, underscore and dash, and total length below 256. -/
def delegationSegmentOk (s : String) : Bool :=
  !s.isEmpty && s.toList.all (fun c => c.isLower || c.isDigit || c == '_' || c == '-')

/-- Modelled from the spec: grammar check for delegated role names. -/
def IsDelegation (name : String) : Bool :=
  match splitSlash name with
  | "targets" :: rest =>
      !rest.isEmpty && rest.all delegationSegmentOk && name.toList.length < 256
  | _ => false

/-- The canonical signed types of the four base roles. -/
def TUFTypes (role : String) : Option String :=
  if role == "root" then some "Root"
  else if role == "targets" then some "Targets"
  else if role == "snapshot" then some "Snapshot"
  else if role == "timestamp" then some "Timestamp"
  else none

/-- A delegated targets role uses the canonical targets type. -/
def CanonicalRole (role : String) : String :=
  if IsDelegation role then "targets" else role

/-- Modelled from the spec: the signed type must equal the canonical
type for the role. -/
def ValidTUFType (typ role : String) : Bool :=
  TUFTypes (CanonicalRole role) == some typ

/-- The typed failures of envelope verification. -/
inductive VerifyError where
  | noSignatures
  | wrongType
  | lowVersion (actual min : Int)
  | expired (role : String)
  | roleThreshold
  | unknownRole
  deriving DecidableEq, Repr

def IsExpired (now expires : Int) : Bool := expires ≤ now

/-- Modelled from the spec: the type, expiry and version checks of the
envelope verifier (the code of tuf/signed is exercised by the tests
under src/unnamed/part_001 but is not itself under src/). -/
def verifyMeta (s : Signed) (role : String) (minVersion : Int) (now : Int) :
    Except VerifyError Unit :=
  if !(ValidTUFType s.signed.typ role) then .error .wrongType
  else if IsExpired now s.signed.expires then .error (.expired role)
  else if s.signed.version < minVersion then
    .error (.lowVersion s.signed.version minVersion)
  else .ok ()

/-- A signature is counted for a role when its declared key id is
authorized by the role, the key is known to the database, and the
signature verifies over the canonical signed bytes. -/
def validSig (db : KeyDB) (r : Role) (msg : SignedCommon) (sig : Signature) : Bool :=
  r.keyIDs.contains sig.keyID && db.hasKey sig.keyID &&
    sig.sigKey == sig.keyID && sig.sigMsg == msg

/-- The distinct key ids with valid signatures (duplicates collapse). -/
def validKeyIDs (s : Signed) (db : KeyDB) (r : Role) : List String :=
  ((s.signatures.filter (validSig db r s.signed)).map (fun sig => sig.keyID)).dedup

/-- Modelled from the spec: the threshold check of the envelope
verifier; distinct valid authorized key ids must reach the threshold. -/
def VerifySignatures (s : Signed) (role : String) (db : KeyDB) :
    Except VerifyError Unit :=
  if s.signatures.isEmpty then .error .noSignatures
  else
    match db.getRole role with
    | none => .error .unknownRole
    | some r =>
        if r.threshold < 1 then .error .roleThreshold
        else if (validKeyIDs s db r).length < r.threshold then .error .roleThreshold
        else .ok ()

/-- Modelled from the spec: Verify(signed, role, min_version, keyring)
runs the metadata checks and then the signature checks. -/
def Verify (s : Signed) (role : String) (minVersion : Int) (db : KeyDB) (now : Int) :
    Except VerifyError Unit :=
  match verifyMeta s role minVersion now with
  | .error e => .error e
  | .ok _ => VerifySignatures s role db

/-- Signing failure: the signer holds no private key of the requested set. -/
inductive SignError where
  | noKeys (keyIDs : List String)
  deriving DecidableEq, Repr

/-- The signer capability: the set of key ids it holds privately. -/
structure CryptoSvc where
  held : List String
  deriving DecidableEq, Repr

/-- Modelled from the spec: Sign produces one signature per requested
key the service holds (collapsing duplicate requests by key id), fails
with NoKeys when it holds none of them, and keeps the previous
signatures whose key id was not re-signed (the code of tuf/signed/sign
is exercised by src/tuf/signed/sign_test.go but is not under src/). -/
def Sign (svc : CryptoSvc) (s : Signed) (keys : List String) : Except SignError Signed :=
  let privKeys : List String := (keys.filter (fun k => svc.held.contains k)).dedup
  if privKeys.isEmpty then .error (.noKeys keys)
  else
    let newSigs := privKeys.map (fun k =>
      { keyID := k, method := "ed25519", sigKey := k, sigMsg := s.signed : Signature })
    let kept := s.signatures.filter (fun sig => !(privKeys.contains sig.keyID))
    .ok { s with signatures := newSigs ++ kept }

/-- Signing with a single held key k replaces every previous signature
carrying key id k by the one fresh signature and keeps the rest. -/
theorem Sign_one_key_eq (svc : CryptoSvc) (s : Signed) (k : String)
    (h : svc.held.contains k = true) :
    Sign svc s [k] = .ok { s with signatures :=
      ({ keyID := k, method := "ed25519", sigKey := k, sigMsg := s.signed } ::
        s.signatures.filter (fun sig => !(sig.keyID == k))) } := by
  have hk : k ∈ svc.held := by simpa using h
  unfold Sign
  have h1 : ([k].filter (fun x => svc.held.contains x)) = [k] := by simp [hk]
  rw [h1]
  simp [hk]
  refine List.filter_congr ?_
  intro a _
  by_cases hek : a.keyID = k
  · simp [hek]
  · simp [hek]

/-- C10: Sign is idempotent per key id: signing an envelope with a key
it already carries a signature from leaves exactly one signature with
that key id, and signing again still leaves exactly one. -/
theorem Sign_idempotent_per_key :
    ∀ (svc : CryptoSvc) (s : Signed) (k : String), svc.held.contains k = true →
      ∃ s₁, Sign svc s [k] = .ok s₁ ∧
        (s₁.signatures.filter (fun sig => sig.keyID == k)).length = 1 ∧
        ∃ s₂, Sign svc s₁ [k] = .ok s₂ ∧
          (s₂.signatures.filter (fun sig => sig.keyID == k)).length = 1 := by
  intro svc s k h
  refine ⟨_, Sign_one_key_eq svc s k h, ?_, _, Sign_one_key_eq svc _ k h, ?_⟩ <;>
    simp [List.filter_filter]

/-- Witness: the idempotence applied at a concrete service and key. -/
theorem Sign_idempotent_per_key_witness :
    ∃ s₁, Sign { held := ["a"] }
        { signed := { typ := "Root", version := 1, expires := 10 }, signatures := [] }
        ["a"] = .ok s₁ ∧
      (s₁.signatures.filter (fun sig => sig.keyID == "a")).length = 1 ∧
      ∃ s₂, Sign { held := ["a"] } s₁ ["a"] = .ok s₂ ∧
        (s₂.signatures.filter (fun sig => sig.keyID == "a")).length = 1 :=
  Sign_idempotent_per_key { held := ["a"] }
    { signed := { typ := "Root", version := 1, expires := 10 }, signatures := [] }
    "a" (by decide)

/-- The payload used by the envelope tests. -/
def dupMsg : SignedCommon := { typ := "Root", version := 1, expires := 10 }

/-- A valid signature by key k1 over dupMsg. -/
def dupSig : Signature :=
  { keyID := "k1", method := "ed25519", sigKey := "k1", sigMsg := dupMsg }

/-- An envelope carrying the same signature twice. -/
def dupEnvelope : Signed := { signed := dupMsg, signatures := [dupSig, dupSig] }

/-- A database whose root role has threshold 2 but only one key. -/
def dupDB : KeyDB :=
  { keys := ["k1"],
    roles := [{ name := "root", keyIDs := ["k1"], threshold := 2, paths := [] }] }

/-- C1: verify succeeds iff the envelope carries at least one signature,
its type equals the canonical type for the role, its version is at
least the minimum, its expiry is in the future, and the number of
distinct key ids with valid signatures over the canonical signed bytes
that are authorized by the role reaches the threshold; and the
duplicated signature of a single key does not satisfy a threshold of
two. -/
theorem Verify_ok_iff_and_duplicates :
    (∀ (s : Signed) (role : String) (minVersion : Int) (db : KeyDB) (now : Int) (r : Role),
        db.getRole role = some r → 1 ≤ r.threshold →
        (Verify s role minVersion db now = .ok () ↔
          (s.signatures ≠ [] ∧ ValidTUFType s.signed.typ role = true ∧
            minVersion ≤ s.signed.version ∧ now < s.signed.expires ∧
            r.threshold ≤
              ((s.signatures.filter (validSig db r s.signed)).map
                (fun sig => sig.keyID)).toFinset.card)))
    ∧ Verify dupEnvelope "root" 1 dupDB 0 = .error .roleThreshold := by
  constructor
  · intro s role minVersion db now r hrole hthr
    have hcard :
        ((s.signatures.filter (validSig db r s.signed)).map
          (fun sig => sig.keyID)).toFinset.card = (validKeyIDs s db r).length := by
      simp [validKeyIDs, List.card_toFinset]
    rw [hcard]
    unfold Verify verifyMeta VerifySignatures
    rw [hrole]
    by_cases h1 : ValidTUFType s.signed.typ role
    · simp only [h1, Bool.not_true, Bool.false_eq_true, if_false]
      by_cases h2 : s.signed.expires ≤ now
      · have : IsExpired now s.signed.expires = true := by
          simp [IsExpired, h2]
        simp only [this, if_true]
        simp only [reduceCtorEq, false_iff, not_and]
        intro _ _ _ h4
        omega
      · have : IsExpired now s.signed.expires = false := by
          simp [IsExpired]
          omega
        simp only [this, Bool.false_eq_true, if_false]
        by_cases h3 : s.signed.version < minVersion
        · simp only [h3, if_pos, if_true]
          simp only [reduceCtorEq, false_iff, not_and]
          intro _ _ h4
          omega
        · simp only [h3, if_false]
          by_cases h4 : s.signatures.isEmpty
          · simp only [h4, if_true]
            have : s.signatures = [] := by
              simpa [List.isEmpty_iff] using h4
            simp [this]
          · simp only [h4, Bool.false_eq_true, if_false]
            have h5 : ¬ r.threshold < 1 := by omega
            simp only [h5, if_false, if_neg]
            by_cases h6 : (validKeyIDs s db r).length < r.threshold
            · simp only [h6, if_true, if_pos]
              simp only [reduceCtorEq, false_iff, not_and]
              intro _ _ _ _
              omega
            · simp only [h6, if_false, if_neg]
              have h7 : s.signatures ≠ [] := by
                simpa [List.isEmpty_iff] using h4
              constructor
              · intro _
                refine ⟨h7, ?_, by omega, by omega, by omega⟩
                simp [h1]
              · intro _
                trivial
    · have hv : ValidTUFType s.signed.typ role = false := by
        simp only [Bool.not_eq_true] at h1
        exact h1
      simp [hv]
  · decide

/-- Witness: the iff applied at a concrete valid envelope. -/
theorem Verify_ok_iff_and_duplicates_witness :
    Verify { signed := dupMsg, signatures := [dupSig] } "root" 1
      { keys := ["k1"],
        roles := [{ name := "root", keyIDs := ["k1"], threshold := 1, paths := [] }] }
      0 = .ok () :=
  (Verify_ok_iff_and_duplicates.1 { signed := dupMsg, signatures := [dupSig] }
      "root" 1
      { keys := ["k1"],
        roles := [{ name := "root", keyIDs := ["k1"], threshold := 1, paths := [] }] }
      0 { name := "root", keyIDs := ["k1"], threshold := 1, paths := [] }
      (by decide) (by decide)).mpr (by decide)

/-- Modelled from the spec: IsParentOf holds when the child name lies
directly below the parent name (path.Dir of the child equals the parent
name); behavior pinned by TestDelegationRolesParent in
src/tuf/tuf_test.go. -/
def IsParentOf (d child : Role) : Bool :=
  pathDir child.name == d.name

/-- Modelled from the spec: the restriction of the child paths to those
prefix-covered by some parent path.  TestDelegationRolesParent in
src/tuf/tuf_test.go pins that uncovered child paths are dropped rather
than rejected. -/
def RestrictDelegationPathPrefixes (parentPaths delegationPaths : List String) :
    List String :=
  if delegationPaths.isEmpty then []
  else delegationPaths.filter (fun delgPath =>
    parentPaths.any (fun pp => strHasPfx pp delgPath))

inductive RoleError where
  | invalidRole (role : String)
  deriving DecidableEq, Repr

/-- Modelled from the spec: Restrict fails when the first role is not
the direct parent of the second, and otherwise returns the child with
its paths restricted by the parent paths. -/
def Restrict (d child : Role) : Except RoleError Role :=
  if IsParentOf d child then
    .ok { name := child.name, keyIDs := child.keyIDs, threshold := child.threshold,
          paths := RestrictDelegationPathPrefixes d.paths child.paths }
  else .error (.invalidRole child.name)

/-- The parent delegation of TestDelegationRolesParent. -/
def delgA : Role :=
  { name := "targets/a", keyIDs := [], threshold := 1,
    paths := ["path", "anotherpath"] }

/-- The child delegation of TestDelegationRolesParent; its third path is
not covered by any parent path. -/
def delgB : Role :=
  { name := "targets/a/b", keyIDs := [], threshold := 1,
    paths := ["path/b", "anotherpath/b", "b/invalidpath"] }

/-- C5 counterexample: delgA is the direct parent of delgB and one of
the declared child paths is covered by no parent path, yet Restrict
succeeds, silently dropping the uncovered path, instead of failing. -/
theorem Restrict_uncovered_path_counterexample :
    IsParentOf delgA delgB = true ∧
    ("b/invalidpath" ∈ delgB.paths ∧
      delgA.paths.all (fun pp => !(strHasPfx pp "b/invalidpath")) = true) ∧
    Restrict delgA delgB =
      .ok { name := "targets/a/b", keyIDs := [], threshold := 1,
            paths := ["path/b", "anotherpath/b"] } := by decide

/-- C5 amended: Restrict fails exactly when the first role is not the
direct parent of the child; on success the result keeps the child name
and threshold, and its paths are precisely the child paths that are
prefix-covered by some parent path (uncovered child paths are dropped
rather than causing failure). -/
theorem Restrict_paths_characterization :
    ∀ (d child : Role),
      ((Restrict d child).isOk = true ↔ IsParentOf d child = true) ∧
      (∀ r, Restrict d child = .ok r →
        (r.name = child.name ∧ r.threshold = child.threshold ∧
          ∀ p, p ∈ r.paths ↔
            (p ∈ child.paths ∧ ∃ pp ∈ d.paths, strHasPfx pp p = true))) := by
  intro d child
  constructor
  · unfold Restrict
    by_cases hp : IsParentOf d child = true
    · simp [hp, Except.isOk, Except.toBool]
    · simp [hp, Except.isOk, Except.toBool]
  · intro r hr
    unfold Restrict at hr
    by_cases hp : IsParentOf d child = true
    · rw [if_pos hp] at hr
      cases hr
      refine ⟨rfl, rfl, ?_⟩
      intro p
      unfold RestrictDelegationPathPrefixes
      by_cases he : child.paths.isEmpty
      · have : child.paths = [] := by simpa [List.isEmpty_iff] using he
        simp [he, this]
      · simp only [he, Bool.false_eq_true, if_false]
        simp [List.mem_filter, List.any_eq_true]
    · rw [if_neg hp] at hr
      cases hr

/-- The restricted child produced by Restrict at the concrete input. -/
def restrictedB : Role :=
  { name := "targets/a/b", keyIDs := [], threshold := 1,
    paths := ["path/b", "anotherpath/b"] }

/-- Witness: the characterization applied at the concrete parent and
child of TestDelegationRolesParent. -/
theorem Restrict_paths_characterization_witness :
    restrictedB.name = delgB.name ∧ restrictedB.threshold = delgB.threshold ∧
      ("path/b" ∈ restrictedB.paths ↔
        ("path/b" ∈ delgB.paths ∧ ∃ pp ∈ delgA.paths, strHasPfx pp "path/b" = true)) :=
  let h := (Restrict_paths_characterization delgA delgB).2 restrictedB (by decide)
  ⟨h.1, h.2.1, h.2.2 "path/b"⟩

/-- A signed root document: the common header, the canonical role
descriptors and the key map (keys are their ids), plus signatures. -/
structure SignedRoot where
  common : SignedCommon
  roles : List Role
  keys : List String
  sigs : List Signature
  deriving DecidableEq, Repr

/-- A signed targets document: common header, delegations block (role
list and key map) and signatures, with the repository dirty flag. -/
structure SignedTargets where
  common : SignedCommon
  delegationsRoles : List Role
  delegationsKeys : List String
  sigs : List Signature
  dirty : Bool
  deriving DecidableEq, Repr

/-- A signed snapshot document: common header, the role names having
entries, and signatures. -/
structure SignedSnapshot where
  common : SignedCommon
  meta : List String
  sigs : List Signature
  deriving DecidableEq, Repr

/-- A stored payload: a parsed document of one of the role kinds, or
raw bytes that parse as none of them.  Checksums are modelled by the
payload itself (the hash is injective). -/
inductive Blob where
  | rootB (r : SignedRoot)
  | targetsB (t : SignedTargets)
  | snapB (s : SignedSnapshot)
  | rawB (s : String)
  deriving DecidableEq, Repr

/-- A proposed role update: role name, version and payload bytes. -/
structure MetaUpdate where
  role : String
  version : Nat
  data : Blob
  deriving DecidableEq, Repr

/-- Typed storage failures. -/
inductive StorageError where
  | notFound
  | oldVersion
  | noKey
  deriving DecidableEq, Repr

def alistGet {α β : Type} [BEq α] (l : List (α × β)) (k : α) : Option β :=
  (l.find? (fun e => e.1 == k)).map (fun e => e.2)

def alistSet {α β : Type} [BEq α] (l : List (α × β)) (k : α) (v : β) : List (α × β) :=
  (k, v) :: l.filter (fun e => !(e.1 == k))

/-- The in-memory server storage: versioned envelope bytes per
(collection, role), the checksum-addressable payloads per collection,
and the pinned server key table per (collection, role). -/
structure MemStorage where
  tufMeta : List ((String × String) × List (Nat × Blob))
  checksums : List (String × List Blob)
  keyTable : List ((String × String) × String)
  deriving DecidableEq, Repr

def lookupMeta (st : MemStorage) (gun role : String) : List (Nat × Blob) :=
  (alistGet st.tufMeta (gun, role)).getD []

def maxEntry : List (Nat × Blob) → Option (Nat × Blob)
  | [] => none
  | e :: rest =>
    match maxEntry rest with
    | none => some e
    | some m => some (if m.1 ≤ e.1 then e else m)

/-- The version currently stored for a (collection, role). -/
def currentVersion (st : MemStorage) (gun role : String) : Option Nat :=
  (maxEntry (lookupMeta st gun role)).map (fun e => e.1)

/-- Appends a payload as the newest version of a role and records its
checksum entry. -/
def applyUpdate (st : MemStorage) (gun : String) (u : MetaUpdate) : MemStorage :=
  { st with
    tufMeta := alistSet st.tufMeta (gun, u.role)
      (lookupMeta st gun u.role ++ [(u.version, u.data)]),
    checksums := alistSet st.checksums gun
      ((alistGet st.checksums gun).getD [] ++ [u.data]) }

/-- Modelled from the spec: update_current accepts a new role version
iff it strictly exceeds every version stored for that (collection,
role), and fails with OldVersion otherwise (the server storage code is
exercised by the tests in src/unnamed/part_002 but is not under
src/). -/
def UpdateCurrent (st : MemStorage) (gun : String) (u : MetaUpdate) :
    MemStorage × Option StorageError :=
  if (lookupMeta st gun u.role).any (fun v => u.version ≤ v.1) then
    (st, some .oldVersion)
  else (applyUpdate st gun u, none)

/-- The conflict scan of update_many: duplicate (role, version) pairs
within the batch, or a version not exceeding what is stored. -/
def checkUpdates (st : MemStorage) (gun : String) :
    List MetaUpdate → List (String × Nat) → Bool
  | [], _ => false
  | u :: rest, seen =>
      if seen.contains (u.role, u.version) then true
      else if (lookupMeta st gun u.role).any (fun v => u.version ≤ v.1) then true
      else checkUpdates st gun rest ((u.role, u.version) :: seen)

/-- Modelled from the spec: update_many applies a batch all-or-nothing;
on any conflict the batch is discarded and OldVersion reported. -/
def UpdateMany (st : MemStorage) (gun : String) (us : List MetaUpdate) :
    MemStorage × Option StorageError :=
  if checkUpdates st gun us [] then (st, some .oldVersion)
  else (us.foldl (fun acc u => applyUpdate acc gun u) st, none)

/-- Modelled from the spec: the latest stored payload for a role. -/
def GetCurrent (st : MemStorage) (gun role : String) : Except StorageError Blob :=
  match maxEntry (lookupMeta st gun role) with
  | none => .error .notFound
  | some e => .ok e.2

/-- Modelled from the spec: checksum-addressable retrieval of a stored
payload (the checksum of a payload is the payload itself here). -/
def GetChecksum (st : MemStorage) (gun _role : String) (checksum : Blob) :
    Except StorageError Blob :=
  if ((alistGet st.checksums gun).getD []).contains checksum then .ok checksum
  else .error .notFound

/-- Modelled from the spec: the pinned server-held public key for a
(collection, role); a plain lookup that never creates anything. -/
def StorageGetKey (st : MemStorage) (gun role : String) : Option String :=
  alistGet st.keyTable (gun, role)

theorem alistGet_set_self {α β : Type} [BEq α] [LawfulBEq α]
    (l : List (α × β)) (k : α) (v : β) :
    alistGet (alistSet l k v) k = some v := by
  simp [alistGet, alistSet]

theorem alistGet_set_ne {α β : Type} [BEq α] [LawfulBEq α]
    (l : List (α × β)) (k k' : α) (v : β) (h : k' ≠ k) :
    alistGet (alistSet l k v) k' = alistGet l k' := by
  unfold alistGet alistSet
  have hk : ((k, v).1 == k') = false := by
    simp
    exact fun he => h he.symm
  rw [List.find?]
  rw [hk]
  induction l with
  | nil => simp
  | cons e rest ih =>
    by_cases he : e.1 == k
    · have he2 : (e.1 == k') = false := by
        simp at he ⊢
        rw [he]
        exact fun hx => h hx.symm
      simp only [List.filter_cons, he, Bool.not_true, Bool.false_eq_true, if_false]
      rw [List.find?]
      rw [he2]
      exact ih
    · simp only [List.filter_cons, he, Bool.not_false, if_pos]
      rw [List.find?, List.find?]
      cases hx : (e.1 == k') with
      | true => rfl
      | false => exact ih

theorem maxEntry_mem (l : List (Nat × Blob)) (m : Nat × Blob)
    (h : maxEntry l = some m) : m ∈ l := by
  induction l generalizing m with
  | nil => simp [maxEntry] at h
  | cons e rest ih =>
    unfold maxEntry at h
    cases hr : maxEntry rest with
    | none =>
      rw [hr] at h
      simp at h
      simp [h]
    | some m2 =>
      rw [hr] at h
      simp at h
      by_cases hle : m2.1 ≤ e.1
      · rw [if_pos hle] at h
        simp [← h]
      · rw [if_neg hle] at h
        right
        rw [← h]
        exact ih m2 hr

theorem maxEntry_is_max (l : List (Nat × Blob)) :
    ∀ e ∈ l, ∃ m, maxEntry l = some m ∧ e.1 ≤ m.1 := by
  induction l with
  | nil => intro e he; simp at he
  | cons x rest ih =>
    intro e he
    unfold maxEntry
    cases hr : maxEntry rest with
    | none =>
      have hrest : rest = [] := by
        cases rest with
        | nil => rfl
        | cons y ys =>
          unfold maxEntry at hr
          cases h2 : maxEntry ys <;> rw [h2] at hr <;> simp at hr
      subst hrest
      simp at he
      refine ⟨x, rfl, ?_⟩
      rw [he]
    | some m2 =>
      rw [List.mem_cons] at he
      have hle2 : e.1 ≤ m2.1 ∨ e = x := by
        rcases he with he | he
        · right; exact he
        · left
          obtain ⟨m, hm, h3⟩ := ih e he
          rw [hr] at hm
          cases hm
          exact h3
      by_cases hle : m2.1 ≤ x.1
      · refine ⟨x, ?_, ?_⟩
        · show some (if m2.1 ≤ x.1 then x else m2) = some x
          rw [if_pos hle]
        · rcases hle2 with h3 | h3
          · omega
          · rw [h3]
      · refine ⟨m2, ?_, ?_⟩
        · show some (if m2.1 ≤ x.1 then x else m2) = some m2
          rw [if_neg hle]
        · rcases hle2 with h3 | h3
          · exact h3
          · rw [h3]; omega

theorem maxEntry_append_biggest (l : List (Nat × Blob)) (v : Nat) (d : Blob)
    (h : ∀ e ∈ l, e.1 < v) : maxEntry (l ++ [(v, d)]) = some (v, d) := by
  induction l with
  | nil => rfl
  | cons e rest ih =>
    have hrest : maxEntry (rest ++ [(v, d)]) = some (v, d) := by
      apply ih
      intro x hx
      exact h x (by simp [hx])
    show maxEntry (e :: (rest ++ [(v, d)])) = some (v, d)
    unfold maxEntry
    rw [hrest]
    show some (if (v, d).1 ≤ e.1 then e else (v, d)) = some (v, d)
    have hne : ¬ ((v, d).1 ≤ e.1) := by
      have := h e (by simp)
      simp
      omega
    rw [if_neg hne]

theorem lookupMeta_applyUpdate_self (st : MemStorage) (gun : String) (u : MetaUpdate) :
    lookupMeta (applyUpdate st gun u) gun u.role =
      lookupMeta st gun u.role ++ [(u.version, u.data)] := by
  show (alistGet (applyUpdate st gun u).tufMeta (gun, u.role)).getD [] = _
  unfold applyUpdate
  rw [alistGet_set_self]
  rfl

/-- C6: update_current accepts a proposed role version iff it strictly
exceeds the version currently stored for that (collection, role), any
version being accepted when none is stored; otherwise it fails with
OldVersion leaving the store unchanged; on success the stored current
version becomes the accepted one, so current versions are strictly
increasing. -/
theorem UpdateCurrent_strictly_monotone :
    ∀ (st : MemStorage) (gun : String) (u : MetaUpdate),
      ((UpdateCurrent st gun u).2 = none ↔
        ∀ w, currentVersion st gun u.role = some w → w < u.version) ∧
      ((UpdateCurrent st gun u).2 ≠ none →
        UpdateCurrent st gun u = (st, some .oldVersion)) ∧
      ((UpdateCurrent st gun u).2 = none →
        currentVersion (UpdateCurrent st gun u).1 gun u.role = some u.version) := by
  intro st gun u
  by_cases hc : (lookupMeta st gun u.role).any (fun v => u.version ≤ v.1) = true
  · have hU : UpdateCurrent st gun u = (st, some .oldVersion) := by
      unfold UpdateCurrent
      rw [if_pos hc]
    rw [hU]
    refine ⟨⟨fun h => by simp at h, fun hall => ?_⟩, fun _ => rfl, fun h => by simp at h⟩
    exfalso
    rw [List.any_eq_true] at hc
    obtain ⟨e, he, hle⟩ := hc
    obtain ⟨m, hm, h2⟩ := maxEntry_is_max _ e he
    have h3 := hall m.1 (by simp [currentVersion, hm])
    simp at hle
    omega
  · have hallt : ∀ e ∈ lookupMeta st gun u.role, e.1 < u.version := by
      intro e he
      by_contra hcon
      apply hc
      rw [List.any_eq_true]
      refine ⟨e, he, by simp; omega⟩
    have hU : UpdateCurrent st gun u = (applyUpdate st gun u, none) := by
      unfold UpdateCurrent
      rw [if_neg hc]
    rw [hU]
    refine ⟨⟨fun _ w hw => ?_, fun _ => rfl⟩, fun h => absurd rfl h, fun _ => ?_⟩
    · unfold currentVersion at hw
      cases hm : maxEntry (lookupMeta st gun u.role) with
      | none => rw [hm] at hw; simp at hw
      | some m =>
        rw [hm] at hw
        simp at hw
        have h4 := maxEntry_mem _ m hm
        have h5 := hallt m h4
        omega
    · show currentVersion (applyUpdate st gun u) gun u.role = some u.version
      unfold currentVersion
      rw [lookupMeta_applyUpdate_self, maxEntry_append_biggest _ _ _ hallt]
      rfl

/-- The empty in-memory storage. -/
def emptyStorage : MemStorage := { tufMeta := [], checksums := [], keyTable := [] }

/-- Witness: a first version is accepted into the empty store. -/
theorem UpdateCurrent_strictly_monotone_witness :
    (UpdateCurrent emptyStorage "gun"
      { role := "root", version := 1, data := .rawB "a" }).2 = none :=
  ((UpdateCurrent_strictly_monotone emptyStorage "gun"
      { role := "root", version := 1, data := .rawB "a" }).1).mpr
    (fun w hw => by simp [currentVersion, lookupMeta, alistGet, emptyStorage, maxEntry] at hw)

/-- The (role, version) pairs of a batch. -/
def pairsOf (us : List MetaUpdate) : List (String × Nat) :=
  us.map (fun u => (u.role, u.version))

theorem checkUpdates_iff (st : MemStorage) (gun : String) :
    ∀ (us : List MetaUpdate) (seen : List (String × Nat)),
      checkUpdates st gun us seen = true ↔
        ((∃ u ∈ us, ∃ v ∈ lookupMeta st gun u.role, u.version ≤ v.1) ∨
          (∃ u ∈ us, (u.role, u.version) ∈ seen) ∨
          ¬ (pairsOf us).Nodup) := by
  intro us
  induction us with
  | nil => intro seen; simp [checkUpdates, pairsOf]
  | cons u rest ih =>
    intro seen
    unfold checkUpdates
    by_cases h1 : seen.contains (u.role, u.version) = true
    · rw [if_pos h1]
      simp only [true_iff]
      exact Or.inr (Or.inl ⟨u, List.mem_cons_self u rest, by simpa using h1⟩)
    · rw [if_neg h1]
      by_cases h2 : (lookupMeta st gun u.role).any (fun v => u.version ≤ v.1) = true
      · rw [if_pos h2]
        simp only [true_iff]
        left
        rw [List.any_eq_true] at h2
        obtain ⟨v, hv, hle⟩ := h2
        exact ⟨u, List.mem_cons_self u rest, v, hv, by simpa using hle⟩
      · rw [if_neg h2]
        rw [ih ((u.role, u.version) :: seen)]
        have hpc : pairsOf (u :: rest) = (u.role, u.version) :: pairsOf rest := rfl
        constructor
        · rintro (⟨w, hw, hv⟩ | ⟨w, hw, hmem⟩ | hnd)
          · exact Or.inl ⟨w, List.mem_cons_of_mem _ hw, hv⟩
          · rw [List.mem_cons] at hmem
            rcases hmem with hmem | hmem
            · right; right
              rw [hpc, List.nodup_cons]
              rintro ⟨hnotmem, _⟩
              apply hnotmem
              rw [← hmem]
              exact List.mem_map_of_mem _ hw
            · exact Or.inr (Or.inl ⟨w, List.mem_cons_of_mem _ hw, hmem⟩)
          · right; right
            rw [hpc, List.nodup_cons]
            rintro ⟨_, hnd2⟩
            exact hnd hnd2
        · rintro (⟨w, hw, hv⟩ | ⟨w, hw, hmem⟩ | hnd)
          · rw [List.mem_cons] at hw
            rcases hw with hw | hw
            · exfalso
              apply h2
              rw [List.any_eq_true]
              subst hw
              obtain ⟨v, hv2, hle⟩ := hv
              exact ⟨v, hv2, by simpa using hle⟩
            · exact Or.inl ⟨w, hw, hv⟩
          · rw [List.mem_cons] at hw
            rcases hw with hw | hw
            · exfalso
              apply h1
              subst hw
              simpa using hmem
            · exact Or.inr (Or.inl ⟨w, hw, List.mem_cons_of_mem _ hmem⟩)
          · rw [hpc, List.nodup_cons] at hnd
            by_cases hin : (u.role, u.version) ∈ pairsOf rest
            · rw [pairsOf, List.mem_map] at hin
              obtain ⟨w, hw, hpw⟩ := hin
              refine Or.inr (Or.inl ⟨w, hw, ?_⟩)
              rw [hpw]
              exact List.mem_cons_self _ _
            · refine Or.inr (Or.inr ?_)
              intro hn
              exact hnd ⟨hin, hn⟩

/-- C7: update_many is all-or-nothing: a batch containing any conflict
with the stored versions or within itself (including a duplicate
(role, version) pair) is discarded in full with OldVersion; afterwards
no update of the failed batch is visible as the current version or as a
checksum-addressable payload, previously stored data is unchanged, and
a conflict-free batch is accepted. -/
theorem UpdateMany_all_or_nothing :
    ∀ (st : MemStorage) (gun : String) (us : List MetaUpdate),
      (((∃ u ∈ us, ∃ v ∈ lookupMeta st gun u.role, u.version ≤ v.1) ∨
          ¬ (pairsOf us).Nodup) →
        (UpdateMany st gun us = (st, some .oldVersion) ∧
          (∀ u ∈ us, GetCurrent (UpdateMany st gun us).1 gun u.role =
              GetCurrent st gun u.role) ∧
          (∀ u ∈ us,
            ((alistGet st.checksums gun).getD []).contains u.data = false →
            GetChecksum (UpdateMany st gun us).1 gun u.role u.data =
              .error .notFound))) ∧
      ((UpdateMany st gun us).2 ≠ none →
        (UpdateMany st gun us).1 = st ∧
          (UpdateMany st gun us).2 = some .oldVersion) ∧
      ((¬ ((∃ u ∈ us, ∃ v ∈ lookupMeta st gun u.role, u.version ≤ v.1) ∨
            ¬ (pairsOf us).Nodup)) → (UpdateMany st gun us).2 = none) := by
  intro st gun us
  have hiff := checkUpdates_iff st gun us []
  have hiff2 : checkUpdates st gun us [] = true ↔
      ((∃ u ∈ us, ∃ v ∈ lookupMeta st gun u.role, u.version ≤ v.1) ∨
        ¬ (pairsOf us).Nodup) := by
    rw [hiff]
    constructor
    · rintro (h | ⟨w, _, hmem⟩ | h)
      · exact Or.inl h
      · simp at hmem
      · exact Or.inr h
    · rintro (h | h)
      · exact Or.inl h
      · exact Or.inr (Or.inr h)
  refine ⟨fun hconf => ?_, fun hne => ?_, fun hnoconf => ?_⟩
  · have hU : UpdateMany st gun us = (st, some .oldVersion) := by
      unfold UpdateMany
      rw [if_pos (hiff2.mpr hconf)]
    refine ⟨hU, fun u _ => by rw [hU], fun u _ hcs => ?_⟩
    rw [hU]
    show GetChecksum st gun u.role u.data = .error .notFound
    unfold GetChecksum
    rw [hcs]
    simp
  · by_cases hb : checkUpdates st gun us [] = true
    · have hU : UpdateMany st gun us = (st, some .oldVersion) := by
        unfold UpdateMany
        rw [if_pos hb]
      rw [hU]
      exact ⟨rfl, rfl⟩
    · have hU : (UpdateMany st gun us).2 = none := by
        unfold UpdateMany
        rw [if_neg hb]
      exact absurd hU hne
  · have hb : ¬ checkUpdates st gun us [] = true := fun h => hnoconf (hiff2.mp h)
    unfold UpdateMany
    rw [if_neg hb]

/-- A store holding one root payload at version 1. -/
def w7st : MemStorage :=
  { tufMeta := [(("gun", "root"), [(1, .rawB "r1")])],
    checksums := [("gun", [.rawB "r1"])], keyTable := [] }

/-- A batch conflicting with the stored root version. -/
def w7us : List MetaUpdate := [{ role := "root", version := 1, data := .rawB "bad" }]

/-- Witness: the conflicting batch is rejected in full and its payload
is not checksum-addressable afterwards. -/
theorem UpdateMany_all_or_nothing_witness :
    UpdateMany w7st "gun" w7us = (w7st, some .oldVersion) ∧
      GetChecksum (UpdateMany w7st "gun" w7us).1 "gun" "root" (.rawB "bad") =
        .error .notFound :=
  have h := (UpdateMany_all_or_nothing w7st "gun" w7us).1 (by decide)
  ⟨h.1, h.2.2 { role := "root", version := 1, data := .rawB "bad" }
    (by decide) (by decide)⟩

/-- Typed failures of the repository mutation operations. -/
inductive RepoError where
  | invalidRole (role : String)
  | noKeys
  | notLoaded (role : String)
  deriving DecidableEq, Repr

/-- The slice of the repository state that the delegation operations
act on: the base role descriptors from root, the loaded targets
documents by role name, the snapshot entry names, and the key ids whose
private halves the crypto service holds. -/
structure Repo where
  rootRoles : List Role
  targets : List (String × SignedTargets)
  snapshotMeta : List String
  held : List String
  deriving DecidableEq, Repr

def baseRoleNames : List String := ["root", "targets", "snapshot", "timestamp"]

/-- The base role descriptor for one of the four canonical names. -/
def Repo.getBaseRole (repo : Repo) (name : String) : Option Role :=
  if baseRoleNames.contains name then
    repo.rootRoles.find? (fun r => r.name == name)
  else none

/-- The slash-separated prefixes of a role name, shortest first,
including the name itself. -/
def namePrefixes (name : String) : List String :=
  let segs := splitSlash name
  (List.range segs.length).map (fun i => joinSlash (segs.take (i + 1)))

/-- Walks the delegation tree along the remaining prefixes, resolving
each role entry from the document of its parent. -/
def walkDeleg (repo : Repo) : List String → String → Option Role
  | [], _ => none
  | p :: rest, parent =>
    match alistGet repo.targets parent with
    | none => none
    | some pdoc =>
      match pdoc.delegationsRoles.find? (fun r => r.name == p) with
      | none => none
      | some r => if rest.isEmpty then some r else walkDeleg repo rest p

/-- Modelled from the spec: resolving a delegation role walks the
parent chain from the base targets document. -/
def Repo.getDelegationRole (repo : Repo) (name : String) : Option Role :=
  if IsDelegation name then walkDeleg repo (namePrefixes name).tail "targets"
  else none

/-- Modelled from the spec: an operation may mutate under a role only
when the role resolves and the crypto service holds at least one of its
keys; an unresolvable role is InvalidRole and a resolvable one without
held keys is NoKeys. -/
def Repo.verifyCanSign (repo : Repo) (roleName : String) : Except RepoError Unit :=
  match repo.getBaseRole roleName with
  | some r =>
      if r.keyIDs.any (fun k => repo.held.contains k) then .ok ()
      else .error .noKeys
  | none =>
      match repo.getDelegationRole roleName with
      | some r =>
          if r.keyIDs.any (fun k => repo.held.contains k) then .ok ()
          else .error .noKeys
      | none => .error (.invalidRole roleName)

/-- Modelled from the spec: delete_delegation checks the name grammar,
requires the parent role to resolve and be signable, deletes the child
document and snapshot entry if present, and removes the role from the
parent document when that document is loaded and lists it, dropping key
entries no surviving sibling references and marking the parent dirty;
an absent sibling or a missing parent document is a no-op success
(behavior pinned by the DeleteDelegation tests in src/tuf/tuf_test.go). -/
def DeleteDelegation (repo : Repo) (role : String) : Except RepoError Repo :=
  if !(IsDelegation role) then .error (.invalidRole role)
  else
    let parent := pathDir role
    match repo.verifyCanSign parent with
    | .error e => .error e
    | .ok _ =>
      let repo1 : Repo := { repo with
        targets := repo.targets.filter (fun e => !(e.1 == role)),
        snapshotMeta := repo.snapshotMeta.filter (fun n => !(n == role)) }
      match alistGet repo1.targets parent with
      | none => .ok repo1
      | some pdoc =>
        if pdoc.delegationsRoles.any (fun r => r.name == role) then
          let newRoles := pdoc.delegationsRoles.filter (fun r => !(r.name == role))
          let newDoc : SignedTargets := { pdoc with
            delegationsRoles := newRoles,
            delegationsKeys := pdoc.delegationsKeys.filter
              (fun k => newRoles.any (fun r => r.keyIDs.contains k)),
            dirty := true }
          .ok { repo1 with targets := alistSet repo1.targets parent newDoc }
        else .ok repo1

/-- C8: delete_delegation on a sibling absent from a loaded, signable
parent is a no-op success leaving the parent document (and its dirty
flag) unchanged; with the parent document missing it is a no-op
success; and under a parent role that does not resolve it fails with
InvalidRole. -/
theorem DeleteDelegation_noop_cases :
    (∀ (repo : Repo) (name : String) (pdoc : SignedTargets),
        IsDelegation name = true →
        repo.verifyCanSign (pathDir name) = .ok () →
        alistGet repo.targets (pathDir name) = some pdoc →
        pdoc.delegationsRoles.all (fun r => !(r.name == name)) = true →
        (∀ e ∈ repo.targets, e.1 ≠ name) →
        (∀ n ∈ repo.snapshotMeta, n ≠ name) →
        DeleteDelegation repo name = .ok repo) ∧
    (∀ (repo : Repo) (name : String),
        IsDelegation name = true →
        repo.verifyCanSign (pathDir name) = .ok () →
        alistGet repo.targets (pathDir name) = none →
        (∀ e ∈ repo.targets, e.1 ≠ name) →
        (∀ n ∈ repo.snapshotMeta, n ≠ name) →
        DeleteDelegation repo name = .ok repo) ∧
    (∀ (repo : Repo) (name : String),
        IsDelegation name = true →
        repo.verifyCanSign (pathDir name) = .error (.invalidRole (pathDir name)) →
        DeleteDelegation repo name = .error (.invalidRole (pathDir name))) := by
  have hfilT : ∀ (repo : Repo) (name : String), (∀ e ∈ repo.targets, e.1 ≠ name) →
      repo.targets.filter (fun e => !(e.1 == name)) = repo.targets := by
    intro repo name h
    apply List.filter_eq_self.mpr
    intro a ha
    simpa using h a ha
  have hfilS : ∀ (repo : Repo) (name : String), (∀ n ∈ repo.snapshotMeta, n ≠ name) →
      repo.snapshotMeta.filter (fun n => !(n == name)) = repo.snapshotMeta := by
    intro repo name h
    apply List.filter_eq_self.mpr
    intro a ha
    simpa using h a ha
  refine ⟨?_, ?_, ?_⟩
  · intro repo name pdoc h1 h2 h3 h4 h5 h6
    have hany : pdoc.delegationsRoles.any (fun r => r.name == name) = false := by
      rw [List.all_eq_true] at h4
      rw [← Bool.not_eq_true, List.any_eq_true]
      rintro ⟨r, hr, hrn⟩
      have := h4 r hr
      simp at this hrn
      exact this hrn
    unfold DeleteDelegation
    rw [h1]
    simp only [Bool.not_true, Bool.false_eq_true, if_false]
    rw [h2]
    rw [hfilT repo name h5, hfilS repo name h6]
    rw [h3]
    simp [hany]
  · intro repo name h1 h2 h3 h4 h5
    unfold DeleteDelegation
    rw [h1]
    simp only [Bool.not_true, Bool.false_eq_true, if_false]
    rw [h2]
    rw [hfilT repo name h4, hfilS repo name h5]
    rw [h3]
  · intro repo name h1 h2
    unfold DeleteDelegation
    rw [h1]
    simp only [Bool.not_true, Bool.false_eq_true, if_false]
    rw [h2]

/-- An empty targets document, not dirty. -/
def w8doc : SignedTargets :=
  { common := { typ := "Targets", version := 1, expires := 10 },
    delegationsRoles := [], delegationsKeys := [], sigs := [], dirty := false }

/-- A freshly initialized repository: four base roles with held keys,
the base targets document loaded, a snapshot entry for targets. -/
def w8repo : Repo :=
  { rootRoles := [{ name := "root", keyIDs := ["kr"], threshold := 1, paths := [] },
                  { name := "targets", keyIDs := ["kt"], threshold := 1, paths := [] },
                  { name := "snapshot", keyIDs := ["ks"], threshold := 1, paths := [] },
                  { name := "timestamp", keyIDs := ["kts"], threshold := 1, paths := [] }],
    targets := [("targets", w8doc)],
    snapshotMeta := ["targets"],
    held := ["kr", "kt", "ks", "kts"] }

/-- The targets document declaring the delegation targets/test whose
own document is never created. -/
def w8docD : SignedTargets :=
  { common := { typ := "Targets", version := 1, expires := 10 },
    delegationsRoles :=
      [{ name := "targets/test", keyIDs := ["kd"], threshold := 1, paths := ["test"] }],
    delegationsKeys := ["kd"], sigs := [], dirty := true }

/-- The repository after adding that delegation (lazily, no child
document). -/
def w8repoD : Repo :=
  { rootRoles := w8repo.rootRoles,
    targets := [("targets", w8docD)],
    snapshotMeta := ["targets"],
    held := ["kr", "kt", "ks", "kts", "kd"] }

/-- Witness: the three cases at the concrete repositories of the
DeleteDelegation tests. -/
theorem DeleteDelegation_noop_cases_witness :
    DeleteDelegation w8repo "targets/test" = .ok w8repo ∧
    DeleteDelegation w8repoD "targets/test/a" = .ok w8repoD ∧
    DeleteDelegation w8repo "targets/test/deep" =
      .error (.invalidRole "targets/test") :=
  ⟨DeleteDelegation_noop_cases.1 w8repo "targets/test" w8doc (by decide) (by decide)
      (by decide) (by decide) (by decide) (by decide),
    DeleteDelegation_noop_cases.2.1 w8repoD "targets/test/a" (by decide) (by decide)
      (by decide) (by decide) (by decide),
    DeleteDelegation_noop_cases.2.2 w8repo "targets/test/deep" (by decide) (by decide)⟩

/-- The aggregated rejections of the server-side update validator,
together with the storage NotFound that propagates unwrapped when a
parent targets document cannot be loaded. -/
inductive ValidationError where
  | badRoot
  | badTargets
  | badSnapshot
  | badHierarchy
  | notFound
  deriving DecidableEq, Repr

/-- The key database declared inside a root document. -/
def rootKeyDB (d : SignedRoot) : KeyDB := { keys := d.keys, roles := d.roles }

/-- The key ids the timestamp role of a root document declares. -/
def rootTimestampKeyIDs (d : SignedRoot) : List String :=
  match d.roles.find? (fun r => r.name == "timestamp") with
  | none => []
  | some r => r.keyIDs

/-- Modelled from the spec: root bootstrap of the validator.  The
candidate is verified against the roles and keys declared inside
itself; with a stored root it is additionally verified against the
stored root role (rotation proof); with no stored root it is accepted
only if its timestamp role declares exactly one key equal to the
pre-provisioned timestamp public key held in server storage, failing
BadRoot otherwise.  The storage handle is threaded through to show the
key lookup never mutates it. -/
def validateRoot (st : MemStorage) (gun : String) (storedRoot : Option SignedRoot)
    (candidate : SignedRoot) (now : Int) :
    MemStorage × Except ValidationError SignedRoot :=
  match Verify { signed := candidate.common, signatures := candidate.sigs }
      "root" 1 (rootKeyDB candidate) now with
  | .error _ => (st, .error .badRoot)
  | .ok _ =>
    match storedRoot with
    | some old =>
        match Verify { signed := candidate.common, signatures := candidate.sigs }
            "root" 1 (rootKeyDB old) now with
        | .error _ => (st, .error .badRoot)
        | .ok _ => (st, .ok candidate)
    | none =>
        match rootTimestampKeyIDs candidate with
        | [k] =>
            match StorageGetKey st gun "timestamp" with
            | none => (st, .error .badRoot)
            | some sk => if sk == k then (st, .ok candidate) else (st, .error .badRoot)
        | _ => (st, .error .badRoot)

/-- C2: with no stored root the validator accepts a candidate root only
if the candidate timestamp role declares exactly one key and that key
equals the pre-provisioned timestamp key in server storage; a missing
or different stored key fails with BadRoot, and the storage (in
particular its key table) is never changed, so no timestamp key is
created. -/
theorem validateRoot_bootstrap_pinning :
    ∀ (st : MemStorage) (gun : String) (candidate : SignedRoot) (now : Int),
      ((validateRoot st gun none candidate now).1 = st) ∧
      (∀ d, (validateRoot st gun none candidate now).2 = .ok d →
        (d = candidate ∧ ∃ k, rootTimestampKeyIDs candidate = [k] ∧
          StorageGetKey st gun "timestamp" = some k)) ∧
      (StorageGetKey st gun "timestamp" = none →
        (validateRoot st gun none candidate now).2 = .error .badRoot) ∧
      (∀ sk k, StorageGetKey st gun "timestamp" = some sk →
        rootTimestampKeyIDs candidate = [k] → sk ≠ k →
        (validateRoot st gun none candidate now).2 = .error .badRoot) := by
  intro st gun candidate now
  cases hv : Verify { signed := candidate.common, signatures := candidate.sigs }
      "root" 1 (rootKeyDB candidate) now with
  | error e =>
    have hres : validateRoot st gun none candidate now = (st, .error .badRoot) := by
      unfold validateRoot
      rw [hv]
    rw [hres]
    exact ⟨rfl, fun d hd => by simp at hd, fun _ => rfl, fun sk k _ _ _ => rfl⟩
  | ok a =>
    cases a
    cases hts : rootTimestampKeyIDs candidate with
    | nil =>
      have hres : validateRoot st gun none candidate now = (st, .error .badRoot) := by
        unfold validateRoot
        rw [hv, hts]
      rw [hres]
      exact ⟨rfl, fun d hd => by simp at hd, fun _ => rfl,
        fun sk k _ hk _ => by simp at hk⟩
    | cons k1 krest =>
      cases krest with
      | cons k2 krest2 =>
        have hres : validateRoot st gun none candidate now = (st, .error .badRoot) := by
          unfold validateRoot
          rw [hv, hts]
        rw [hres]
        exact ⟨rfl, fun d hd => by simp at hd, fun _ => rfl,
          fun sk k _ hk _ => by simp at hk⟩
      | nil =>
        cases hsk : StorageGetKey st gun "timestamp" with
        | none =>
          have hres : validateRoot st gun none candidate now = (st, .error .badRoot) := by
            unfold validateRoot
            rw [hv, hts, hsk]
          rw [hres]
          exact ⟨rfl, fun d hd => by simp at hd, fun _ => rfl,
            fun sk k hsk2 _ _ => by simp at hsk2⟩
        | some sk =>
          by_cases he : sk = k1
          · subst he
            have hres : validateRoot st gun none candidate now = (st, .ok candidate) := by
              unfold validateRoot
              rw [hv, hts, hsk]
              simp
            rw [hres]
            refine ⟨rfl, fun d hd => ?_, fun hn => by simp at hn,
              fun sk2 k hsk2 hk hne => ?_⟩
            · simp at hd
              exact ⟨hd.symm, sk, rfl, rfl⟩
            · simp at hsk2 hk
              subst hsk2
              subst hk
              exact absurd rfl hne
          · have hres : validateRoot st gun none candidate now =
                (st, .error .badRoot) := by
              unfold validateRoot
              rw [hv, hts, hsk]
              simp [he]
            rw [hres]
            exact ⟨rfl, fun d hd => by simp at hd, fun _ => rfl,
              fun sk2 k _ _ _ => rfl⟩

/-- A candidate root declaring a single timestamp key kts, self-signed
by its root key kr. -/
def w2root : SignedRoot :=
  { common := { typ := "Root", version := 1, expires := 10 },
    roles := [{ name := "root", keyIDs := ["kr"], threshold := 1, paths := [] },
              { name := "targets", keyIDs := ["kt"], threshold := 1, paths := [] },
              { name := "snapshot", keyIDs := ["ks"], threshold := 1, paths := [] },
              { name := "timestamp", keyIDs := ["kts"], threshold := 1, paths := [] }],
    keys := ["kr", "kt", "ks", "kts"],
    sigs := [{ keyID := "kr", method := "ed25519", sigKey := "kr",
               sigMsg := { typ := "Root", version := 1, expires := 10 } }] }

/-- A store pinning the timestamp key kts for the collection. -/
def w2st : MemStorage :=
  { tufMeta := [], checksums := [], keyTable := [(("gun", "timestamp"), "kts")] }

/-- Witness: the bootstrap pinning applied at a matching pinned key and
at a store with no pinned key. -/
theorem validateRoot_bootstrap_pinning_witness :
    (validateRoot w2st "gun" none w2root 0).1 = w2st ∧
      (w2root = w2root ∧ ∃ k, rootTimestampKeyIDs w2root = [k] ∧
        StorageGetKey w2st "gun" "timestamp" = some k) ∧
      (validateRoot emptyStorage "gun" none w2root 0).2 = .error .badRoot :=
  have h := validateRoot_bootstrap_pinning w2st "gun" w2root 0
  have h2 := validateRoot_bootstrap_pinning emptyStorage "gun" w2root 0
  ⟨h.1, h.2.1 w2root (by decide), h2.2.2.1 (by decide)⟩

/-- The repository state the validator rebuilds: the trusted root and
the targets documents loaded so far. -/
structure ValRepo where
  root : Option SignedRoot
  targets : List (String × SignedTargets)
  deriving DecidableEq, Repr

def parseSnapshot : Blob → Option SignedSnapshot
  | .snapB s => some s
  | _ => none

def parseTargets : Blob → Option SignedTargets
  | .targetsB t => some t
  | _ => none

/-- The default expiry the server applies to generated snapshots. -/
def defaultSnapshotExpires : Int := 1000000

/-- Builds the generated snapshot update at a given version, signed by
the server-held key, with entries for every loaded targets document. -/
def mkSnapshotUpdate (repo : ValRepo) (k : String) (v : Int) : MetaUpdate :=
  { role := "snapshot", version := v.toNat,
    data := .snapB
      { common := { typ := "Snapshot", version := v, expires := defaultSnapshotExpires },
        meta := repo.targets.map (fun e => e.1),
        sigs := [{ keyID := k, method := "ed25519", sigKey := k,
                   sigMsg := { typ := "Snapshot", version := v,
                               expires := defaultSnapshotExpires } }] } }

/-- Modelled from the spec: snapshot synthesis.  The snapshot role must
exist in root (else BadRoot); the server must hold a snapshot key for
the collection that the role authorizes (else BadHierarchy); the prior
version is read from the stored snapshot if any (corrupt stored bytes
fail BadSnapshot) and bumped by one, a fresh snapshot starting at
version one; the entries cover all currently loaded targets documents
and the result is signed with the server-held key. -/
def generateSnapshot (gun : String) (repo : ValRepo) (st : MemStorage) :
    Except ValidationError MetaUpdate :=
  match repo.root with
  | none => .error .badRoot
  | some root =>
    match root.roles.find? (fun r => r.name == "snapshot") with
    | none => .error .badRoot
    | some snapRole =>
      match StorageGetKey st gun "snapshot" with
      | none => .error .badHierarchy
      | some k =>
        if !(snapRole.keyIDs.contains k) then .error .badHierarchy
        else
          match GetCurrent st gun "snapshot" with
          | .error _ =>
              .ok (mkSnapshotUpdate repo k 1)
          | .ok blob =>
            match parseSnapshot blob with
            | none => .error .badSnapshot
            | some prev => .ok (mkSnapshotUpdate repo k (prev.common.version + 1))

/-- Modelled from the spec: a supplied snapshot update is verified
against the snapshot role from root and must cover every loaded targets
document. -/
def verifySnapshotUpdate (u : MetaUpdate) (repo : ValRepo) (now : Int) :
    Except ValidationError (Option MetaUpdate) :=
  match repo.root with
  | none => .error .badRoot
  | some root =>
    match root.roles.find? (fun r => r.name == "snapshot") with
    | none => .error .badRoot
    | some snapRole =>
      match parseSnapshot u.data with
      | none => .error .badSnapshot
      | some doc =>
        match Verify { signed := doc.common, signatures := doc.sigs } "snapshot" 1
            { keys := root.keys, roles := [snapRole] } now with
        | .error _ => .error .badSnapshot
        | .ok _ =>
          if repo.targets.all (fun e => doc.meta.contains e.1) then .ok (some u)
          else .error .badSnapshot

/-- Modelled from the spec: the snapshot phase of the validator; a
supplied snapshot update is verified, and with none supplied a snapshot
is synthesized exactly when some targets document was updated. -/
def validateSnapshotPhase (gun : String) (snapshotUpdate : Option MetaUpdate)
    (targetsUpdated : Bool) (repo : ValRepo) (st : MemStorage) (now : Int) :
    Except ValidationError (Option MetaUpdate) :=
  match snapshotUpdate with
  | some u => verifySnapshotUpdate u repo now
  | none =>
    if targetsUpdated then
      match generateSnapshot gun repo st with
      | .error e => .error e
      | .ok u => .ok (some u)
    else .ok none

/-- C4: with no snapshot update but at least one updated targets
document the validator synthesizes a snapshot: its version is one
greater than the stored snapshot version (a fresh version one when none
is stored, BadSnapshot when the stored bytes are corrupt), its entries
cover exactly the loaded targets documents, it is signed with the
server-held snapshot key, and a missing server snapshot key fails with
BadHierarchy. -/
theorem generateSnapshot_behavior :
    ∀ (gun : String) (repo : ValRepo) (st : MemStorage) (root : SignedRoot)
      (snapRole : Role) (now : Int),
      repo.root = some root →
      root.roles.find? (fun r => r.name == "snapshot") = some snapRole →
      ((StorageGetKey st gun "snapshot" = none →
          validateSnapshotPhase gun none true repo st now = .error .badHierarchy) ∧
        (∀ k, StorageGetKey st gun "snapshot" = some k →
          snapRole.keyIDs.contains k = true →
          ((∀ blob prev, GetCurrent st gun "snapshot" = .ok blob →
              parseSnapshot blob = some prev →
              ∃ doc, validateSnapshotPhase gun none true repo st now =
                  .ok (some { role := "snapshot",
                              version := (prev.common.version + 1).toNat,
                              data := .snapB doc }) ∧
                doc.common.version = prev.common.version + 1 ∧
                doc.meta = repo.targets.map (fun e => e.1) ∧
                doc.sigs.map (fun s => s.keyID) = [k]) ∧
            (∀ blob, GetCurrent st gun "snapshot" = .ok blob →
              parseSnapshot blob = none →
              validateSnapshotPhase gun none true repo st now = .error .badSnapshot) ∧
            (GetCurrent st gun "snapshot" = .error .notFound →
              ∃ doc, validateSnapshotPhase gun none true repo st now =
                  .ok (some { role := "snapshot", version := 1,
                              data := .snapB doc }) ∧
                doc.common.version = 1 ∧
                doc.meta = repo.targets.map (fun e => e.1) ∧
                doc.sigs.map (fun s => s.keyID) = [k])))) := by
  intro gun repo st root snapRole now hroot hrole
  have hgen : ∀ (res : Except ValidationError MetaUpdate),
      generateSnapshot gun repo st = res →
      validateSnapshotPhase gun none true repo st now =
        (match res with | .error e => .error e | .ok u => .ok (some u)) := by
    intro res hres
    unfold validateSnapshotPhase
    rw [hres]
    rfl
  refine ⟨fun hk => ?_,
    fun k hk hmem => ⟨fun blob prev hcur hparse => ?_,
      fun blob hcur hparse => ?_, fun hcur => ?_⟩⟩
  · have hg : generateSnapshot gun repo st = .error .badHierarchy := by
      unfold generateSnapshot
      simp [hroot, hrole, hk]
    rw [hgen _ hg]
  · have hg : generateSnapshot gun repo st =
        .ok (mkSnapshotUpdate repo k (prev.common.version + 1)) := by
      unfold generateSnapshot
      simp [hroot, hrole, hk, (show k ∈ snapRole.keyIDs by simpa using hmem), hcur, hparse]
    rw [hgen _ hg]
    exact ⟨_, rfl, rfl, rfl, rfl⟩
  · have hg : generateSnapshot gun repo st = .error .badSnapshot := by
      unfold generateSnapshot
      simp [hroot, hrole, hk, (show k ∈ snapRole.keyIDs by simpa using hmem), hcur, hparse]
    rw [hgen _ hg]
  · have hg : generateSnapshot gun repo st = .ok (mkSnapshotUpdate repo k 1) := by
      unfold generateSnapshot
      simp [hroot, hrole, hk, (show k ∈ snapRole.keyIDs by simpa using hmem), hcur]
    rw [hgen _ hg]
    exact ⟨_, rfl, rfl, rfl, rfl⟩

/-- The stored previous snapshot at version one. -/
def w4prev : SignedSnapshot :=
  { common := { typ := "Snapshot", version := 1, expires := 10 },
    meta := ["targets"], sigs := [] }

/-- A store holding the server snapshot key ks and the previous
snapshot. -/
def w4st : MemStorage :=
  { tufMeta := [(("gun", "snapshot"), [(1, .snapB w4prev)])],
    checksums := [("gun", [.snapB w4prev])],
    keyTable := [(("gun", "snapshot"), "ks")] }

/-- The validator repository with root and base targets loaded. -/
def w4repo : ValRepo := { root := some w2root, targets := [("targets", w8doc)] }

/-- Witness: snapshot generation bumps the stored version by one and a
store without a snapshot key fails BadHierarchy. -/
theorem generateSnapshot_behavior_witness :
    (∃ doc, validateSnapshotPhase "gun" none true w4repo w4st 0 =
        .ok (some { role := "snapshot",
                    version := ((1 : Int) + 1).toNat, data := .snapB doc }) ∧
      doc.common.version = (1 : Int) + 1 ∧
      doc.meta = w4repo.targets.map (fun e => e.1) ∧
      doc.sigs.map (fun s => s.keyID) = ["ks"]) ∧
    validateSnapshotPhase "gun" none true w4repo emptyStorage 0 =
      .error .badHierarchy :=
  have h := generateSnapshot_behavior "gun" w4repo w4st w2root
    { name := "snapshot", keyIDs := ["ks"], threshold := 1, paths := [] } 0
    (by decide) (by decide)
  have h2 := generateSnapshot_behavior "gun" w4repo emptyStorage w2root
    { name := "snapshot", keyIDs := ["ks"], threshold := 1, paths := [] } 0
    (by decide) (by decide)
  ⟨(h.2 "ks" (by decide) (by decide)).1 (.snapB w4prev) w4prev (by decide) (by decide),
    h2.1 (by decide)⟩

def roleDepth (name : String) : Nat := (splitSlash name).length

def insertByDepth (u : MetaUpdate) : List MetaUpdate → List MetaUpdate
  | [] => [u]
  | v :: rest =>
      if roleDepth u.role ≤ roleDepth v.role then u :: v :: rest
      else v :: insertByDepth u rest

/-- Stable insertion sort by delegation depth, shallower roles first. -/
def sortByDepth : List MetaUpdate → List MetaUpdate
  | [] => []
  | u :: rest => insertByDepth u (sortByDepth rest)

/-- Modelled from the spec: loads a targets document from storage into
the validator repository; a missing document surfaces the storage
NotFound. -/
def loadTargetsFromStore (gun role : String) (repo : ValRepo) (st : MemStorage) :
    Except ValidationError ValRepo :=
  match GetCurrent st gun role with
  | .error _ => .error .notFound
  | .ok blob =>
    match parseTargets blob with
    | none => .error .badTargets
    | some doc => .ok { repo with targets := alistSet repo.targets role doc }

/-- Loads every ancestor document not already present (whether loaded
from the update set earlier or from storage now), shallowest first. -/
def loadAncestors (gun : String) (st : MemStorage) :
    ValRepo → List String → Except ValidationError ValRepo
  | repo, [] => .ok repo
  | repo, a :: rest =>
    match alistGet repo.targets a with
    | some _ => loadAncestors gun st repo rest
    | none =>
      match loadTargetsFromStore gun a repo st with
      | .error e => .error e
      | .ok repo2 => loadAncestors gun st repo2 rest

/-- Modelled from the spec and pinned by
TestValidateTargetsRoleNotInParent in
src/server/handlers/validation_test.go: one targets update is checked
against the role descriptor resolved from its parent (from root for the
base targets role); a delegated role that the parent does not declare
yields none, dropping the update instead of failing. -/
def validateTargetsUpdate (u : MetaUpdate) (repo : ValRepo) (now : Int) :
    Except ValidationError (Option SignedTargets) :=
  match parseTargets u.data with
  | none => .error .badTargets
  | some doc =>
    if u.role == "targets" then
      match repo.root with
      | none => .error .badRoot
      | some root =>
        match root.roles.find? (fun r => r.name == "targets") with
        | none => .error .badRoot
        | some rdesc =>
          match Verify { signed := doc.common, signatures := doc.sigs } u.role 1
              { keys := root.keys, roles := [rdesc] } now with
          | .error _ => .error .badTargets
          | .ok _ => .ok (some doc)
    else
      match alistGet repo.targets (pathDir u.role) with
      | none => .error .notFound
      | some pdoc =>
        match pdoc.delegationsRoles.find? (fun r => r.name == u.role) with
        | none => .ok none
        | some rdesc =>
          match Verify { signed := doc.common, signatures := doc.sigs } u.role 1
              { keys := pdoc.delegationsKeys, roles := [rdesc] } now with
          | .error _ => .error .badTargets
          | .ok _ => .ok (some doc)

/-- Processes the depth-sorted targets updates in order, loading
ancestors as needed and collecting the updates to apply. -/
def processTargetsRoles (gun : String) (now : Int) (st : MemStorage) :
    ValRepo → List MetaUpdate → Except ValidationError (ValRepo × List MetaUpdate)
  | repo, [] => .ok (repo, [])
  | repo, u :: rest =>
    match loadAncestors gun st repo (namePrefixes u.role).dropLast with
    | .error e => .error e
    | .ok repo1 =>
      match validateTargetsUpdate u repo1 now with
      | .error e => .error e
      | .ok none => processTargetsRoles gun now st repo1 rest
      | .ok (some doc) =>
        match processTargetsRoles gun now st
            { repo1 with targets := alistSet repo1.targets u.role doc } rest with
        | .error e => .error e
        | .ok (repo2, updates) => .ok (repo2, u :: updates)

/-- Modelled from the spec: targets-chain validation; the targets-role
updates are collected, sorted ancestors first and processed. -/
def loadAndValidateTargets (gun : String) (repo : ValRepo)
    (roles : List MetaUpdate) (st : MemStorage) (now : Int) :
    Except ValidationError (List MetaUpdate) :=
  match processTargetsRoles gun now st repo
      (sortByDepth (roles.filter
        (fun u => u.role == "targets" || IsDelegation u.role))) with
  | .error e => .error e
  | .ok (_, updates) => .ok updates

theorem isDelegation_ne_targets (r : String) (h : IsDelegation r = true) :
    (r == "targets") = false := by
  by_cases he : r = "targets"
  · subst he
    exact absurd h (by decide)
  · simp [he]

/-- The base targets document with no delegations, signed by kt. -/
def c3tgts : SignedTargets :=
  { common := { typ := "Targets", version := 1, expires := 10 },
    delegationsRoles := [], delegationsKeys := [],
    sigs := [{ keyID := "kt", method := "ed25519", sigKey := "kt",
               sigMsg := { typ := "Targets", version := 1, expires := 10 } }],
    dirty := false }

/-- The delegated document for targets/level1, signed by kl. -/
def c3del : SignedTargets :=
  { common := { typ := "Targets", version := 1, expires := 10 },
    delegationsRoles := [], delegationsKeys := [],
    sigs := [{ keyID := "kl", method := "ed25519", sigKey := "kl",
               sigMsg := { typ := "Targets", version := 1, expires := 10 } }],
    dirty := false }

def c3parentU : MetaUpdate := { role := "targets", version := 1, data := .targetsB c3tgts }

def c3childU : MetaUpdate :=
  { role := "targets/level1", version := 1, data := .targetsB c3del }

/-- The validator repository holding only the trusted root. -/
def c3repo : ValRepo := { root := some w2root, targets := [] }

/-- C3 counterexample: the update set carries the base targets document
(which declares no delegations) and a delegated update for
targets/level1; the delegated role is not declared in the loaded
parent, yet validation succeeds with the delegated update silently
dropped, instead of failing with BadTargets. -/
theorem loadAndValidateTargets_drop_counterexample :
    c3tgts.delegationsRoles.find? (fun r => r.name == "targets/level1") = none ∧
    loadAndValidateTargets "gun" c3repo [c3childU, c3parentU] emptyStorage 0 =
      .ok [c3parentU] := by decide

/-- The base targets document that does declare targets/level1. -/
def c3tgtsD : SignedTargets :=
  { common := { typ := "Targets", version := 1, expires := 10 },
    delegationsRoles :=
      [{ name := "targets/level1", keyIDs := ["kl"], threshold := 1, paths := [""] }],
    delegationsKeys := ["kl"],
    sigs := [{ keyID := "kt", method := "ed25519", sigKey := "kt",
               sigMsg := { typ := "Targets", version := 1, expires := 10 } }],
    dirty := false }

def c3parentUD : MetaUpdate :=
  { role := "targets", version := 1, data := .targetsB c3tgtsD }

/-- Scanning the ancestor chain, once every name before a missing one
is either already loaded or loadable from storage, reaching a name that
is in neither the repository nor storage fails with the storage
NotFound (loading earlier ancestors only ever adds their own names, so
it cannot supply the missing one). -/
theorem loadAncestors_missing_notFound (gun : String) (st : MemStorage) :
    ∀ (pre : List String) (repo : ValRepo) (a : String) (post : List String),
      (∀ x ∈ pre, x ≠ a) →
      (∀ x ∈ pre, (alistGet repo.targets x).isSome = true ∨
        ∃ blob doc, GetCurrent st gun x = .ok blob ∧ parseTargets blob = some doc) →
      alistGet repo.targets a = none →
      GetCurrent st gun a = .error .notFound →
      loadAncestors gun st repo (pre ++ a :: post) = .error .notFound := by
  intro pre
  induction pre with
  | nil =>
    intro repo a post _ _ ha hcur
    simp only [List.nil_append]
    unfold loadAncestors
    rw [ha]
    unfold loadTargetsFromStore
    rw [hcur]
  | cons x pre ih =>
    intro repo a post hne hav ha hcur
    have hxa : x ≠ a := hne x (List.mem_cons_self x pre)
    have hne2 : ∀ y ∈ pre, y ≠ a := fun y hy => hne y (List.mem_cons_of_mem _ hy)
    simp only [List.cons_append]
    cases hp : alistGet repo.targets x with
    | some d =>
      unfold loadAncestors
      rw [hp]
      exact ih repo a post hne2
        (fun y hy => hav y (List.mem_cons_of_mem _ hy)) ha hcur
    | none =>
      rcases hav x (List.mem_cons_self x pre) with hx | ⟨blob, doc, hcx, hpx⟩
      · rw [hp] at hx
        simp at hx
      · unfold loadAncestors loadTargetsFromStore
        simp only [hp, hcx, hpx]
        apply ih
        · exact hne2
        · intro y hy
          rcases hav y (List.mem_cons_of_mem _ hy) with hy2 | hy2
          · left
            by_cases hyx : y = x
            · subst hyx
              show (alistGet (alistSet repo.targets y doc) y).isSome = true
              rw [alistGet_set_self]
              rfl
            · show (alistGet (alistSet repo.targets x doc) y).isSome = true
              rw [alistGet_set_ne repo.targets x y doc hyx]
              exact hy2
          · exact Or.inr hy2
        · show alistGet (alistSet repo.targets x doc) a = none
          rw [alistGet_set_ne repo.targets x a doc (fun h => hxa h.symm)]
          exact ha
        · exact hcur

/-- When every ancestor document is already loaded the ancestor scan
reads nothing from storage and leaves the repository unchanged. -/
theorem loadAncestors_id_of_present (gun : String) (st : MemStorage) :
    ∀ (names : List String) (repo : ValRepo),
      (∀ a ∈ names, (alistGet repo.targets a).isSome = true) →
      loadAncestors gun st repo names = .ok repo := by
  intro names
  induction names with
  | nil => intro repo _; rfl
  | cons x names ih =>
    intro repo h
    obtain ⟨d, hd⟩ := Option.isSome_iff_exists.mp (h x (List.mem_cons_self x names))
    unfold loadAncestors
    rw [hd]
    exact ih repo (fun y hy => h y (List.mem_cons_of_mem _ hy))

/-- A store whose current base targets document declares no
delegations. -/
def c3stTgts : MemStorage :=
  { tufMeta := [(("gun", "targets"), [(1, .targetsB c3tgts)])],
    checksums := [("gun", [.targetsB c3tgts])], keyTable := [] }

/-- C3 amended: for every proposed delegated targets update, at any
delegation depth and any position in the batch (each update of the
depth-sorted batch is processed as the head of processTargetsRoles
against the repository accumulated so far), the validator resolves the
parent from the documents already in the repository — installed there by
earlier updates of the set — or else loads it from storage, failing with
the storage NotFound when an ancestor is in neither (first part, the
ancestor chain decomposed arbitrarily); a parent that is present but
does not declare the role makes the validator silently drop the update
and continue on the rest of the batch (second part); the ancestor scan
leaves the repository unchanged when everything is present (third
part); an accepted update installs its document, the remainder of the
batch being processed against it and any child resolving its parent to
exactly that document of the update set (fourth part); and the
TestValidateTargetsParentInUpdate-shaped two-update batch is accepted
in ancestor order (last part). -/
theorem loadAndValidateTargets_parent_resolution :
    (∀ (gun : String) (now : Int) (st : MemStorage) (repo : ValRepo)
        (u : MetaUpdate) (rest : List MetaUpdate) (pre : List String)
        (a : String) (post : List String),
        IsDelegation u.role = true →
        (namePrefixes u.role).dropLast = pre ++ a :: post →
        (∀ x ∈ pre, x ≠ a) →
        (∀ x ∈ pre, (alistGet repo.targets x).isSome = true ∨
          ∃ blob doc, GetCurrent st gun x = .ok blob ∧ parseTargets blob = some doc) →
        alistGet repo.targets a = none →
        GetCurrent st gun a = .error .notFound →
        processTargetsRoles gun now st repo (u :: rest) = .error .notFound) ∧
    (∀ (gun : String) (now : Int) (st : MemStorage) (repo repo1 : ValRepo)
        (u : MetaUpdate) (rest : List MetaUpdate) (doc pdoc : SignedTargets),
        loadAncestors gun st repo (namePrefixes u.role).dropLast = .ok repo1 →
        IsDelegation u.role = true →
        parseTargets u.data = some doc →
        alistGet repo1.targets (pathDir u.role) = some pdoc →
        pdoc.delegationsRoles.find? (fun r => r.name == u.role) = none →
        processTargetsRoles gun now st repo (u :: rest) =
          processTargetsRoles gun now st repo1 rest) ∧
    (∀ (gun : String) (st : MemStorage) (names : List String) (repo : ValRepo),
        (∀ a ∈ names, (alistGet repo.targets a).isSome = true) →
        loadAncestors gun st repo names = .ok repo) ∧
    (∀ (gun : String) (now : Int) (st : MemStorage) (repo : ValRepo)
        (u : MetaUpdate) (rest : List MetaUpdate) (doc : SignedTargets),
        (∀ a ∈ (namePrefixes u.role).dropLast,
          (alistGet repo.targets a).isSome = true) →
        validateTargetsUpdate u repo now = .ok (some doc) →
        (processTargetsRoles gun now st repo (u :: rest) =
          (match processTargetsRoles gun now st
              { repo with targets := alistSet repo.targets u.role doc } rest with
            | .error e => .error e
            | .ok (repo2, updates) => .ok (repo2, u :: updates)) ∧
          ∀ (v : MetaUpdate), IsDelegation v.role = true →
            pathDir v.role = u.role →
            alistGet (alistSet repo.targets u.role doc) (pathDir v.role) =
              some doc)) ∧
    loadAndValidateTargets "gun" c3repo [c3childU, c3parentUD] emptyStorage 0 =
      .ok [c3parentUD, c3childU] := by
  refine ⟨?_, ?_, loadAncestors_id_of_present, ?_, by decide⟩
  · intro gun now st repo u rest pre a post _ hdecomp hne hav ha hcur
    have hload := loadAncestors_missing_notFound gun st pre repo a post hne hav ha hcur
    unfold processTargetsRoles
    rw [hdecomp, hload]
  · intro gun now st repo repo1 u rest doc pdoc hload hdeleg hparse hpdoc hfind
    simp only [processTargetsRoles, hload, validateTargetsUpdate, hparse,
      isDelegation_ne_targets u.role hdeleg, Bool.false_eq_true, if_false,
      hpdoc, hfind]
  · intro gun now st repo u rest doc hpresent hval
    have hload := loadAncestors_id_of_present gun st (namePrefixes u.role).dropLast
      repo hpresent
    constructor
    · simp only [processTargetsRoles, hload, hval]
    · intro v _ hpv
      rw [hpv, alistGet_set_self]

/-- The repository after the ancestor scan loads the plain base targets
document from storage. -/
def c3repoLoaded : ValRepo :=
  { root := some w2root, targets := [("targets", c3tgts)] }

/-- Witness: a delegated update whose parent is in neither the
repository nor storage fails NotFound; a parent loaded from storage
that does not declare the role makes processing drop the update and
continue; and an accepted base targets update from the update set is
the document its delegated child resolves against. -/
theorem loadAndValidateTargets_parent_resolution_witness :
    processTargetsRoles "gun" 0 emptyStorage c3repo [c3childU] =
      .error .notFound ∧
    processTargetsRoles "gun" 0 c3stTgts c3repo [c3childU] =
      processTargetsRoles "gun" 0 c3stTgts c3repoLoaded [] ∧
    alistGet (alistSet c3repo.targets "targets" c3tgtsD) (pathDir c3childU.role) =
      some c3tgtsD :=
  ⟨loadAndValidateTargets_parent_resolution.1 "gun" 0 emptyStorage c3repo c3childU
      [] [] "targets" [] (by decide) (by decide) (by decide)
      (by intro x hx; cases hx) (by decide) (by decide),
    loadAndValidateTargets_parent_resolution.2.1 "gun" 0 c3stTgts c3repo
      c3repoLoaded c3childU [] c3del c3tgts
      (by decide) (by decide) (by decide) (by decide) (by decide),
    (loadAndValidateTargets_parent_resolution.2.2.2.1 "gun" 0 c3stTgts c3repo
      c3parentUD [c3childU] c3tgtsD (by decide) (by decide)).2 c3childU
      (by decide) (by decide)⟩

/-- A decoded PEM block: type, headers and body. -/
structure PEMBlock where
  typ : String
  headers : List (String × String)
  body : String
  deriving DecidableEq, Repr

/-- A header of a block, when present. -/
def getHeader (b : PEMBlock) (k : String) : Option String :=
  alistGet b.headers k

/-- The block as re-encoded for the write, after the source deletes the
path header. -/
def stripPathHeader (b : PEMBlock) : PEMBlock :=
  { b with headers := b.headers.filter (fun e => !(e.1 == "path")) }

/-- The aggregation loop of ImportKeys (src/utils/keys.go): writeTo and
toWrite carry the pending file; a block without a usable path header is
skipped; a block for a new path flushes the pending write; the final
pending write is flushed at the end.  A store write is recorded as a
(path, content) pair, the stores being assumed to accept writes
(importToStores records the write). -/
def importLoop (writeTo : String) (toWrite : List PEMBlock) :
    List PEMBlock → List (String × List PEMBlock)
  | [] => if toWrite.isEmpty then [] else [(writeTo, toWrite)]
  | b :: rest =>
    match getHeader b "path" with
    | none => importLoop writeTo toWrite rest
    | some loc =>
      if loc == "" then importLoop writeTo toWrite rest
      else if loc == writeTo then
        importLoop writeTo (toWrite ++ [stripPathHeader b]) rest
      else
        (if toWrite.isEmpty then [] else [(writeTo, toWrite)]) ++
          importLoop loc [stripPathHeader b] rest

/-- ImportKeys from src/utils/keys.go over an already decoded PEM
stream: the list of store writes it performs, in order. -/
def ImportKeys (blocks : List PEMBlock) : List (String × List PEMBlock) :=
  importLoop "" [] blocks

/-- Prepends a chunk, concatenating into the head chunk when the paths
agree. -/
def mergeChunk (p : String) (bs : List PEMBlock) :
    List (String × List PEMBlock) → List (String × List PEMBlock)
  | [] => [(p, bs)]
  | (q, cs) :: out =>
      if p == q then (p, bs ++ cs) :: out else (p, bs) :: (q, cs) :: out

/-- Groups consecutive entries with equal path into one chunk. -/
def chunkByPath : List (String × PEMBlock) → List (String × List PEMBlock)
  | [] => []
  | (p, b) :: rest => mergeChunk p [b] (chunkByPath rest)

/-- The blocks that can be imported: those with a nonempty path header,
paired with their target path, path header stripped. -/
def importFilter (blocks : List PEMBlock) : List (String × PEMBlock) :=
  blocks.filterMap (fun b =>
    match getHeader b "path" with
    | none => none
    | some loc => if loc == "" then none else some (loc, stripPathHeader b))

/-- The claim C9 phrased from the words of the spec: blocks without a
usable path header are ignored, and the remaining blocks are grouped by
consecutive identical path, each group concatenated into one write to
that path. -/
def specImportWrites (blocks : List PEMBlock) : List (String × List PEMBlock) :=
  chunkByPath (importFilter blocks)

theorem mergeChunk_head (p : String) (bs : List PEMBlock)
    (out : List (String × List PEMBlock)) :
    ∃ cs t, mergeChunk p bs out = (p, cs) :: t := by
  cases out with
  | nil => exact ⟨bs, [], rfl⟩
  | cons e t =>
    obtain ⟨q, cs⟩ := e
    by_cases h : (p == q) = true
    · exact ⟨bs ++ cs, t, by simp [mergeChunk, h]⟩
    · exact ⟨bs, (q, cs) :: t, by simp [mergeChunk, h]⟩

theorem mergeChunk_merge (p : String) (bs cs : List PEMBlock)
    (out : List (String × List PEMBlock)) :
    mergeChunk p bs (mergeChunk p cs out) = mergeChunk p (bs ++ cs) out := by
  cases out with
  | nil => simp [mergeChunk]
  | cons e t =>
    obtain ⟨q, cs2⟩ := e
    by_cases h : (p == q) = true
    · simp [mergeChunk, h]
    · simp [mergeChunk, h]

theorem importLoop_merge :
    ∀ (rest : List PEMBlock) (w : String) (bs : List PEMBlock),
      (w == "") = false → bs ≠ [] →
      importLoop w bs rest = mergeChunk w bs (chunkByPath (importFilter rest)) := by
  intro rest
  induction rest with
  | nil =>
    intro w bs hw hbs
    have hne : bs.isEmpty = false := by
      simpa [List.isEmpty_iff] using hbs
    simp [importLoop, importFilter, chunkByPath, mergeChunk, hne]
  | cons b rest ih =>
    intro w bs hw hbs
    cases hh : getHeader b "path" with
    | none =>
      have hfil : importFilter (b :: rest) = importFilter rest := by
        unfold importFilter
        rw [List.filterMap_cons]
        simp [hh]
      rw [hfil]
      unfold importLoop
      rw [hh]
      exact ih w bs hw hbs
    | some loc =>
      by_cases hl : (loc == "") = true
      · have hfil : importFilter (b :: rest) = importFilter rest := by
          unfold importFilter
          rw [List.filterMap_cons]
          simp [hh, show loc = "" by simpa using hl]
        rw [hfil]
        unfold importLoop
        rw [hh]
        simp only [hl, if_true, if_pos]
        exact ih w bs hw hbs
      · have hl2 : (loc == "") = false := by simpa using hl
        have hfil : importFilter (b :: rest) =
            (loc, stripPathHeader b) :: importFilter rest := by
          unfold importFilter
          rw [List.filterMap_cons]
          simp [hh, show ¬ loc = "" by simpa using hl]
        rw [hfil]
        by_cases hlw : (loc == w) = true
        · have hleq : loc = w := by simpa using hlw
          subst hleq
          unfold importLoop
          rw [hh]
          simp only [hl2, Bool.false_eq_true, if_false, beq_self_eq_true, if_true,
            if_pos]
          rw [ih loc (bs ++ [stripPathHeader b]) hw (by simp)]
          show _ = mergeChunk loc bs (mergeChunk loc [stripPathHeader b]
            (chunkByPath (importFilter rest)))
          rw [mergeChunk_merge]
        · have hlw2 : (loc == w) = false := by simpa using hlw
          unfold importLoop
          rw [hh]
          simp only [hl2, hlw2, Bool.false_eq_true, if_false]
          have hne : bs.isEmpty = false := by
            simpa [List.isEmpty_iff] using hbs
          rw [hne]
          simp only [Bool.false_eq_true, if_false]
          rw [ih loc [stripPathHeader b] hl2 (by simp)]
          show (w, bs) :: mergeChunk loc [stripPathHeader b]
              (chunkByPath (importFilter rest)) =
            mergeChunk w bs (mergeChunk loc [stripPathHeader b]
              (chunkByPath (importFilter rest)))
          obtain ⟨cs, t, hct⟩ :=
            mergeChunk_head loc [stripPathHeader b] (chunkByPath (importFilter rest))
          rw [hct]
          have hwl : (w == loc) = false := by
            have : ¬ loc = w := by simpa using hlw
            simp
            intro he
            exact this he.symm
          simp [mergeChunk, hwl]

/-- C9: ImportKeys, reading the PEM stream in order, writes each block
to the store path named by its path header; with headerless blocks
skipped (never aborting the import), consecutive blocks of identical
path are concatenated, path header stripped, into one write to that
single target path.  The right side is the grouping described by the
spec. -/
theorem ImportKeys_writes_spec :
    ∀ (blocks : List PEMBlock), ImportKeys blocks = specImportWrites blocks := by
  intro blocks
  show importLoop "" [] blocks = _
  unfold specImportWrites
  induction blocks with
  | nil => rfl
  | cons b rest ih =>
    cases hh : getHeader b "path" with
    | none =>
      have hfil : importFilter (b :: rest) = importFilter rest := by
        unfold importFilter
        rw [List.filterMap_cons]
        simp [hh]
      rw [hfil]
      unfold importLoop
      rw [hh]
      exact ih
    | some loc =>
      by_cases hl : (loc == "") = true
      · have hfil : importFilter (b :: rest) = importFilter rest := by
          unfold importFilter
          rw [List.filterMap_cons]
          simp [hh, show loc = "" by simpa using hl]
        rw [hfil]
        unfold importLoop
        rw [hh]
        simp only [hl, if_true, if_pos]
        exact ih
      · have hl2 : (loc == "") = false := by simpa using hl
        have hfil : importFilter (b :: rest) =
            (loc, stripPathHeader b) :: importFilter rest := by
          unfold importFilter
          rw [List.filterMap_cons]
          simp [hh, show ¬ loc = "" by simpa using hl]
        rw [hfil]
        unfold importLoop
        rw [hh]
        simp only [hl2, Bool.false_eq_true, if_false, List.isEmpty_nil, if_true,
          if_pos, List.nil_append]
        rw [importLoop_merge rest loc [stripPathHeader b] hl2 (by simp)]
        rfl
